import Mathlib

/-!
Verification of the batch-translation orchestration engine of
`src/AI BULK TRANSLATER EXCEL/src/taskpane/taskpane.js`.

The JavaScript source is shallowly embedded: dynamic JS values flowing
through the pipeline are modelled by `JVal`, the spreadsheet grid is a
`List (List JVal)`, the network is an environment mapping request indices
to `HttpResponse`s, and every function below mirrors the control flow of
the correspondingly named JS function.
-/

set_option maxHeartbeats 1000000

-- ===== Constants (taskpane.js lines 19-22, 541) =====

/-- Max number of cells per batch (`BATCH_CELL_LIMIT`, line 19). -/
def BATCH_CELL_LIMIT : Nat := 100

/-- Max total characters per batch (`BATCH_CHAR_LIMIT`, line 20). -/
def BATCH_CHAR_LIMIT : Nat := 15000

/-- Max characters allowed in a single Excel cell (`EXCEL_CELL_CHAR_LIMIT`, line 22). -/
def EXCEL_CELL_CHAR_LIMIT : Nat := 32767

/-- Max retry attempts for rate-limited requests (`MAX_RETRIES`, line 541). -/
def MAX_RETRIES : Nat := 3

-- ===== JS dynamic values =====

/-- A JavaScript/JSON value as it flows through this code: cell values read
from the grid, elements of a parsed JSON response, and values written back.
`jnull` also stands for `undefined`, which this code never distinguishes
from `null` (both are non-strings and falsy at every use site). -/
inductive JVal where
  | jnull : JVal
  | jbool : Bool → JVal
  | jnum : Int → JVal
  | jstr : String → JVal
  | jarr : List JVal → JVal

/-- JS truthiness of a `JVal` (`if (x)`); arrays are always truthy. -/
def jvTruthy : JVal → Bool
  | JVal.jnull => false
  | JVal.jbool b => b
  | JVal.jnum n => !(n == 0)
  | JVal.jstr s => !(s == "")
  | JVal.jarr _ => true

-- ===== Generic character/string helpers (model JS string builtins) =====

/-- `charsStart pat cs` is true when `cs` starts with `pat`. -/
def charsStart : List Char → List Char → Bool
  | [], _ => true
  | _ :: _, [] => false
  | p :: ps, c :: cs => p == c && charsStart ps cs

/-- `charsContain pat cs` is true when `pat` occurs contiguously in `cs`.
Models JS `String.prototype.includes`. -/
def charsContain (pat : List Char) : List Char → Bool
  | [] => charsStart pat []
  | c :: cs => charsStart pat (c :: cs) || charsContain pat cs

/-- Substring containment on strings, models JS `includes`. -/
def strContains (s pat : String) : Bool :=
  charsContain pat.toList s.toList

/-- Models JS `s.substring(0, n)` (clamped prefix of length `n`). -/
def jsSubstringTo (s : String) (n : Nat) : String :=
  String.mk (s.toList.take n)

/-- Models JS `s.trim()`: drop leading and trailing whitespace. -/
def jsTrim (s : String) : String :=
  String.mk (((s.toList.dropWhile Char.isWhitespace).reverse.dropWhile Char.isWhitespace).reverse)

/-- Models JS `s.startsWith(pat)`. -/
def jsStartsWith (s pat : String) : Bool :=
  charsStart pat.toList s.toList

/-- Models JS `s.endsWith(pat)`. -/
def jsEndsWith (s pat : String) : Bool :=
  charsStart pat.toList.reverse s.toList.reverse

/-- ASCII lowercasing of one character (models JS `toLowerCase` on the
character range this add-in manipulates). -/
def lowerChar (c : Char) : Char :=
  if 'A' ≤ c ∧ c ≤ 'Z' then Char.ofNat (c.toNat + 32) else c

/-- Models JS `s.toLowerCase()`. -/
def jsToLower (s : String) : String :=
  String.mk (s.toList.map lowerChar)

-- ===== A small JSON parser =====
-- Models `JSON.parse` on the value shapes this add-in can receive:
-- strings (with simple escapes), integers, booleans, null, and arrays.

/-- Skip JSON whitespace. -/
def skipWs : List Char → List Char
  | [] => []
  | c :: cs => if c == ' ' || c == '\n' || c == '\t' || c == '\r' then skipWs cs else c :: cs

/-- Decode a one-character JSON escape. -/
def unescapeChar (c : Char) : Char :=
  if c == 'n' then '\n' else if c == 't' then '\t' else if c == 'r' then '\r' else c

/-- Parse the body of a JSON string (the opening quote already consumed),
returning the decoded characters and the rest of the input. -/
def parseStringChars : List Char → Option (List Char × List Char)
  | [] => none
  | '\"' :: cs => some ([], cs)
  | '\\' :: [] => none
  | '\\' :: c :: cs =>
    match parseStringChars cs with
    | some (out, rest) => some (unescapeChar c :: out, rest)
    | none => none
  | c :: cs =>
    match parseStringChars cs with
    | some (out, rest) => some (c :: out, rest)
    | none => none

/-- Take a maximal run of decimal digits. -/
def takeDigits : List Char → List Char × List Char
  | [] => ([], [])
  | c :: cs =>
    if c.isDigit then
      let (ds, rest) := takeDigits cs
      (c :: ds, rest)
    else ([], c :: cs)

/-- Numeric value of a digit run. -/
def digitsToNat (ds : List Char) : Nat :=
  ds.foldl (fun acc c => acc * 10 + (c.toNat - 48)) 0

mutual

/-- Parse one JSON value; `fuel` bounds the recursion depth. -/
def parseVal : Nat → List Char → Option (JVal × List Char)
  | 0, _ => none
  | fuel + 1, cs0 =>
    let cs := skipWs cs0
    if charsStart ['n', 'u', 'l', 'l'] cs then some (JVal.jnull, cs.drop 4)
    else if charsStart ['t', 'r', 'u', 'e'] cs then some (JVal.jbool true, cs.drop 4)
    else if charsStart ['f', 'a', 'l', 's', 'e'] cs then some (JVal.jbool false, cs.drop 5)
    else
      match cs with
      | [] => none
      | '\"' :: rest =>
        match parseStringChars rest with
        | some (out, r) => some (JVal.jstr (String.mk out), r)
        | none => none
      | '[' :: rest =>
        match skipWs rest with
        | ']' :: r => some (JVal.jarr [], r)
        | rest' =>
          match parseItems fuel rest' with
          | some (items, r) => some (JVal.jarr items, r)
          | none => none
      | '-' :: rest =>
        match takeDigits rest with
        | ([], _) => none
        | (ds, r) => some (JVal.jnum (-(digitsToNat ds : Int)), r)
      | c :: _ =>
        if c.isDigit then
          match takeDigits cs with
          | (ds, r) => some (JVal.jnum (digitsToNat ds), r)
        else none

/-- Parse a comma-separated list of JSON values up to a closing `]`. -/
def parseItems : Nat → List Char → Option (List JVal × List Char)
  | 0, _ => none
  | fuel + 1, cs =>
    match parseVal fuel cs with
    | none => none
    | some (v, rest) =>
      match skipWs rest with
      | ',' :: r =>
        match parseItems fuel (skipWs r) with
        | some (vs, r2) => some (v :: vs, r2)
        | none => none
      | ']' :: r => some ([v], r)
      | _ => none

end

/-- Models `JSON.parse`: parse a complete JSON document, rejecting
trailing non-whitespace. -/
def jsonParse (s : String) : Option JVal :=
  let cs := s.toList
  match parseVal (2 * cs.length + 2) cs with
  | some (v, rest) => if (skipWs rest).isEmpty then some v else none
  | none => none

-- ===== Response post-processing (callGeminiBatch, lines 570-584) =====

/-- Models line 571: trim, strip a leading triple-backtick json fence and a
trailing triple-backtick fence. -/
def stripFence (s : String) : String :=
  let t := jsTrim s
  let t1 := if jsStartsWith t "```json" then String.mk ((t.toList.drop 7).dropWhile Char.isWhitespace) else t
  if jsEndsWith t1 "```" then String.mk (t1.toList.take (t1.length - 3)) else t1

/-- Models the regex match on line 579 with pattern bracket-dot-star-bracket
and the `s` flag: the greedy match runs from the first opening square
bracket to the last closing square bracket, provided the latter comes
after the former. -/
def extractArraySubstring (s : String) : Option String :=
  let cs := s.toList
  match cs.findIdx? (fun c => c == '[') with
  | none => none
  | some i =>
    match cs.reverse.findIdx? (fun c => c == ']') with
    | none => none
    | some k =>
      let j := cs.length - 1 - k
      if i < j then some (String.mk ((cs.drop i).take (j - i + 1))) else none

/-- The strict parse acceptance of lines 574-577: an array of exactly the
input length is accepted as-is; a bare string is accepted (wrapped) only
when exactly one text was sent. -/
def strictAccept (texts : List String) (v : JVal) : Option (List JVal) :=
  match v with
  | JVal.jarr xs => if xs.length == texts.length then some xs else none
  | JVal.jstr s => if texts.length == 1 then some [JVal.jstr s] else none
  | _ => none

/-- The invalid-format batch-wide failure (line 583). -/
def invalidFormatResult (texts : List String) : List JVal :=
  List.replicate texts.length (JVal.jstr "API Error: Invalid format from AI.")

/-- The catch-block fallback of lines 578-584: extract the first plausible
array substring and parse it, returning whatever array parses (its length
is not compared against the input batch). -/
def fallbackExtract (texts : List String) (cleaned : String) : List JVal :=
  match extractArraySubstring cleaned with
  | some sub =>
    match jsonParse sub with
    | some (JVal.jarr xs) => xs
    | _ => invalidFormatResult texts
  | none => invalidFormatResult texts

/-- The full response-text processing of lines 570-584. -/
def processResponse (texts : List String) (respText : String) : List JVal :=
  let cleaned := stripFence respText
  match jsonParse cleaned with
  | some v =>
    match strictAccept texts v with
    | some out => out
    | none => fallbackExtract texts cleaned
  | none => fallbackExtract texts cleaned

-- ===== The network environment and retry loop (lines 536-589) =====

/-- One HTTP exchange as seen by `callGeminiBatch`:
a 429 status, a non-ok status with an error message, an ok response with
no candidates (blocked), an ok response with generated text, or a
transport-level failure thrown by `fetch`. -/
inductive HttpResponse where
  | rate : HttpResponse
  | httpError : Nat → String → HttpResponse
  | blocked : String → HttpResponse
  | ok : String → HttpResponse
  | netFail : String → HttpResponse
  deriving Repr, DecidableEq

/-- The while-loop of `callGeminiBatch` (lines 544-588). `env` maps the
index of each successive request to its response; the returned triple is
(per-item results, backoff delays in ms, number of requests issued).
The fuel counts the remaining allowed loop iterations (`MAX_RETRIES -
attempt`); the fuel-0 result is the dead final return on line 589. -/
def callGeminiLoop (texts : List String) (env : Nat → HttpResponse) :
    Nat → Nat → Nat → List Nat → List JVal × List Nat × Nat
  | 0, reqIdx, _, delays =>
    (List.replicate texts.length (JVal.jstr "API Error: Failed after all retries."), delays, reqIdx)
  | fuel + 1, reqIdx, attempt, delays =>
    match env reqIdx with
    | HttpResponse.rate =>
      if attempt + 1 ≥ MAX_RETRIES then
        (List.replicate texts.length
          (JVal.jstr "API Error: Rate limit exceeded after 3 retries."), delays, reqIdx + 1)
      else
        callGeminiLoop texts env fuel (reqIdx + 1) (attempt + 1)
          (delays ++ [2 ^ (attempt + 1) * 1000])
    | HttpResponse.netFail msg =>
      (List.replicate texts.length (JVal.jstr ("Network Error: " ++ msg)), delays, reqIdx + 1)
    | HttpResponse.httpError status msg =>
      if strContains (jsToLower msg) "request payload size" then
        (List.replicate texts.length (JVal.jstr "API Error: Request size is too large."), delays, reqIdx + 1)
      else
        (List.replicate texts.length
          (JVal.jstr ("API Error: " ++ toString status ++ " - " ++ msg)), delays, reqIdx + 1)
    | HttpResponse.blocked reason =>
      (List.replicate texts.length (JVal.jstr ("Blocked: " ++ reason)), delays, reqIdx + 1)
    | HttpResponse.ok text => (processResponse texts text, delays, reqIdx + 1)

/-- `callGeminiBatch` (lines 536-590) as a function of the network
environment: up to `MAX_RETRIES` loop iterations starting at attempt 0. -/
def callGeminiBatch (texts : List String) (env : Nat → HttpResponse) :
    List JVal × List Nat × Nat :=
  callGeminiLoop texts env MAX_RETRIES 0 0 []

-- ===== JS `Map` on string keys, as an insertion-ordered association list =====

/-- Models `Map.prototype.has`. -/
def mapHas (m : List (String × α)) (k : String) : Bool :=
  m.any (fun p => p.1 == k)

/-- Models `Map.prototype.get` (`none` for an absent key). -/
def mapGet (m : List (String × α)) (k : String) : Option α :=
  (m.find? (fun p => p.1 == k)).map Prod.snd

/-- Models `Map.prototype.set`: update in place when the key exists
(keeping insertion order), otherwise append. -/
def mapSet (m : List (String × α)) (k : String) (v : α) : List (String × α) :=
  if mapHas m k then m.map (fun p => if p.1 == k then (k, v) else p) else m ++ [(k, v)]

-- ===== Text extraction (translateRange, lines 239-247) =====

/-- The inner column loop of lines 240-246 over one row: cells qualify
exactly when they hold a string whose trimmed form is non-empty. -/
def extractRow (i : Nat) : Nat → List JVal → List (Nat × Nat × String)
  | _, [] => []
  | j, cv :: rest =>
    match cv with
    | JVal.jstr s =>
      if jsTrim s == "" then extractRow i (j + 1) rest
      else (i, j, s) :: extractRow i (j + 1) rest
    | _ => extractRow i (j + 1) rest

/-- The outer row loop of lines 239-247. -/
def extractRows : Nat → List (List JVal) → List (Nat × Nat × String)
  | _, [] => []
  | i, row :: rest => extractRow i 0 row ++ extractRows (i + 1) rest

/-- `cellsToTranslate` computed from the grid (lines 236-247). -/
def extractCells (grid : List (List JVal)) : List (Nat × Nat × String) :=
  extractRows 0 grid

/-- The keys of the `uniqueTexts` map in insertion (first-seen) order,
as built by line 243. -/
def uniqueKeys (texts : List String) : List String :=
  texts.foldl (fun acc t => if acc.contains t then acc else acc ++ [t]) []

/-- Modelled from the spec: "the unique-text set is keyed by exact string
value in first-seen order" — each text is kept at its first occurrence and
all later duplicates are dropped. Reference definition that `uniqueKeys`
is proved to refine. -/
def firstSeenSpec : List String → List String
  | [] => []
  | t :: ts => t :: firstSeenSpec (ts.filter (fun x => !(x == t)))
termination_by l => l.length
decreasing_by
  simp only [List.length_cons]
  exact Nat.lt_succ_of_le (List.length_filter_le _ _)

/-- The cell value at a coordinate, when in range. -/
def cellAt (grid : List (List JVal)) (r c : Nat) : Option JVal :=
  (grid.get? r).bind (fun row => row.get? c)

/-- Whether the grid cell at `(r, c)` qualifies for translation. -/
def translatableAt (grid : List (List JVal)) (r c : Nat) : Bool :=
  match cellAt grid r c with
  | some (JVal.jstr s) => !(jsTrim s == "")
  | _ => false

/-- Strict row-major order on extracted cells: earlier row, or same row
and earlier column. -/
def rowMajorLt (a b : Nat × Nat × String) : Prop :=
  a.1 < b.1 ∨ (a.1 = b.1 ∧ a.2.1 < b.2.1)

-- ===== Batching (translateRange, lines 274-295) =====

/-- The batching loop of lines 277-295: greedy accumulation under the cell
and character limits, with oversized texts flushed into singleton batches. -/
def buildBatchesAux : List String → List (List String) → List String → Nat → List (List String)
  | [], all, cur, _ => if cur.isEmpty then all else all ++ [cur]
  | t :: ts, all, cur, chars =>
    if t.length > BATCH_CHAR_LIMIT then
      buildBatchesAux ts ((if cur.isEmpty then all else all ++ [cur]) ++ [[t]]) [] 0
    else if cur.length > 0 ∧ (chars + t.length > BATCH_CHAR_LIMIT ∨ cur.length ≥ BATCH_CELL_LIMIT) then
      buildBatchesAux ts (all ++ [cur]) [t] t.length
    else
      buildBatchesAux ts all (cur ++ [t]) (chars + t.length)

/-- `allBatches` computed from the texts to fetch (lines 274-295). -/
def buildBatches (texts : List String) : List (List String) :=
  buildBatchesAux texts [] [] 0

/-- Total character count of a batch. -/
def sumLens (b : List String) : Nat :=
  (b.map String.length).sum

/-- The batching invariant for one batch: within both limits, or a
deliberate singleton holding one oversized text. -/
def goodBatch (b : List String) : Prop :=
  (b.length ≤ BATCH_CELL_LIMIT ∧ sumLens b ≤ BATCH_CHAR_LIMIT) ∨
  (∃ t, b = [t] ∧ t.length > BATCH_CHAR_LIMIT)

-- ===== Per-item outcome handling (translateRange, lines 306-321) =====

/-- The error test of line 311: a string result starting with
`API Error` or `Blocked`. -/
def isErrorResult : JVal → Bool
  | JVal.jstr s => jsStartsWith s "API Error" || jsStartsWith s "Blocked"
  | _ => false

/-- The orchestrator state threaded through the batch loop: the
`uniqueTexts` map, the session `translationCache`, and the error report. -/
structure OrchState where
  uniqueMap : List (String × Option JVal)
  cache : List (String × JVal)
  totalErrors : Nat
  firstError : Option String

/-- Lines 307-321 for one item of one batch: error results are counted and
never stored; any other result (with a falsy one replaced by the original
text, line 318) is recorded in the unique-text map and the cache. -/
def processItem (originalText : String) (res : JVal) (st : OrchState) : OrchState :=
  if isErrorResult res then
    { st with
      totalErrors := st.totalErrors + 1,
      firstError := match st.firstError with
        | some m => some m
        | none =>
          match res with
          | JVal.jstr s => some s
          | _ => none }
  else
    let finalText := if jvTruthy res then res else JVal.jstr originalText
    { st with
      uniqueMap := mapSet st.uniqueMap originalText (some finalText),
      cache := mapSet st.cache originalText finalText }

/-- The batch loop of lines 299-329: each batch is translated through
`callGeminiBatch` (batch `i` sees network environment `envs i`) and its
items are folded into the state in order. An index beyond the result
array reads as JS `undefined`, modelled by `jnull`. -/
def runBatches (envs : Nat → Nat → HttpResponse) (batches : List (List String))
    (st0 : OrchState) : OrchState :=
  (batches.zip (List.range batches.length)).foldl
    (fun st bi =>
      let batch := bi.1
      let results := (callGeminiBatch batch (envs bi.2)).1
      (List.range batch.length).foldl
        (fun st' j => processItem (batch.getD j "") (results.getD j JVal.jnull) st') st)
    st0

-- ===== Reconciliation (translateRange, lines 334-346) =====

/-- The cell-size truncation of lines 339-342: strings longer than
`EXCEL_CELL_CHAR_LIMIT` are cut to exactly that length; everything else
is written unchanged. -/
def truncateVal : JVal → JVal
  | JVal.jstr s =>
    if s.length > EXCEL_CELL_CHAR_LIMIT then JVal.jstr (jsSubstringTo s EXCEL_CELL_CHAR_LIMIT)
    else JVal.jstr s
  | v => v

/-- Write `v` at index `c` of a row (no-op out of range, which never
occurs for extracted coordinates). -/
def setCellRow : List JVal → Nat → JVal → List JVal
  | [], _, _ => []
  | _ :: xs, 0, v => v :: xs
  | x :: xs, n + 1, v => x :: setCellRow xs n v

/-- Write `v` at position `(r, c)` of a grid. -/
def setCell : List (List JVal) → Nat → Nat → JVal → List (List JVal)
  | [], _, _, _ => []
  | row :: rows, 0, c, v => setCellRow row c v :: rows
  | row :: rows, r + 1, c, v => row :: setCell rows r c v

/-- Lines 334-346: starting from a deep copy of the original values, write
the (truncated) translation at each translatable cell whose unique-text
entry resolved to a truthy value; all other cells keep their value. -/
def reconcile (cells : List (Nat × Nat × String)) (uniqueMap : List (String × Option JVal))
    (grid : List (List JVal)) : List (List JVal) :=
  cells.foldl
    (fun nv cell =>
      match mapGet uniqueMap cell.2.2 with
      | some (some v) => if jvTruthy v then setCell nv cell.1 cell.2.1 (truncateVal v) else nv
      | _ => nv)
    grid

-- ===== The orchestrator (translateRange, lines 230-390) =====

/-- The observable outcome of one `translateRange` run: the grid of values
written back, the returned error report, the session cache afterwards, and
the list of texts sent to the network (`textsToFetchFromApi`). -/
structure RunResult where
  newValues : List (List JVal)
  totalErrors : Nat
  firstErrorMessage : Option String
  cache : List (String × JVal)
  fetched : List String

/-- `translateRange` (lines 230-390) as a pure function of the starting
session cache, the network environment, and the grid read from the range.
The short-circuit of lines 249-251 leaves the grid untouched. -/
def translateRange (cache0 : List (String × JVal)) (envs : Nat → Nat → HttpResponse)
    (grid : List (List JVal)) : RunResult :=
  let cells := extractCells grid
  if cells.isEmpty then
    { newValues := grid, totalErrors := 0, firstErrorMessage := none,
      cache := cache0, fetched := [] }
  else
    let keys := uniqueKeys (cells.map (fun c => c.2.2))
    let uniqueMap0 := keys.map (fun t => (t, mapGet cache0 t))
    let fetch := keys.filter (fun t => !(mapHas cache0 t))
    let batches := buildBatches fetch
    let st := runBatches envs batches
      { uniqueMap := uniqueMap0, cache := cache0, totalErrors := 0, firstError := none }
    { newValues := reconcile cells st.uniqueMap grid,
      totalErrors := st.totalErrors,
      firstErrorMessage := st.firstError,
      cache := st.cache,
      fetched := fetch }

-- ===== Sheet-name translation (lines 492-523) =====

/-- The characters stripped from a proposed sheet name (the regex character
class on line 492): colon, backslash, slash, question mark, star, and the
two square brackets. -/
def illegalSheetChars : List Char :=
  [':', '\\', '/', '?', '*', '[', ']']

/-- Line 492: strip illegal characters, then truncate to 31 characters. -/
def sanitizeSheetName (s : String) : String :=
  jsSubstringTo (String.mk (s.toList.filter (fun c => !(illegalSheetChars.contains c)))) 31

/-- The candidate produced inside the collision loop for counter `k`
(line 519): append `_k`, shortening the base when the combined length
would exceed 31. -/
def sheetCandidate (baseName : String) (k : Nat) : String :=
  let suffix := "_" ++ Nat.repr k
  if baseName.length > 31 - suffix.length then
    jsSubstringTo baseName (31 - suffix.length) ++ suffix
  else baseName ++ suffix

/-- The while loop of `getUniqueSheetName` (lines 514-523), with explicit
fuel bounding the number of collision checks; a check that finds no
collision returns the current candidate. -/
def getUniqueSheetNameAux (baseName : String) (existingNames : List String) :
    Nat → Nat → String → String
  | 0, _, current => current
  | fuel + 1, counter, current =>
    if existingNames.contains (jsToLower current) then
      getUniqueSheetNameAux baseName existingNames fuel (counter + 1) (sheetCandidate baseName counter)
    else current

/-- `getUniqueSheetName` (lines 514-523). The JS loop is unbounded; fuel
`existingNames.length + 2` is enough for every terminating run whose
accepted candidate index is within the pigeonhole bound, and the
uniqueness theorem below is stated under that explicit reachability
hypothesis. -/
def getUniqueSheetName (baseName : String) (existingNames : List String) : String :=
  getUniqueSheetNameAux baseName existingNames (existingNames.length + 2) 1 baseName

/-- The sequence of candidates checked by the loop when it starts at
`counter` with current candidate `current`: index 0 is `current`, index
`i + 1` is the candidate built from counter `counter + i`. -/
def candFrom (baseName : String) (counter : Nat) (current : String) : Nat → String
  | 0 => current
  | i + 1 => sheetCandidate baseName (counter + i)


-- ===== Claim theorems =====

/-- **C1** (code bug): the claim says every failure kind of the error
taxonomy — including a network error — leaves the original cell value in
place and is counted in the aggregate failure count. The error test on
line 311 only recognizes results starting with `API Error` or `Blocked`,
so the `Network Error: ...` failure string produced on line 586 is treated
as a valid translation: on a 1×1 grid holding `"Hello"` whose only request
fails at transport level, the failure string is written into the cell and
the run reports zero errors, contradicting the claim (and the comment on
line 310 and the project's stated data-safety behavior). -/
theorem c1_network_error_written_to_cell :
    (translateRange [] (fun _ _ => HttpResponse.netFail "connection reset")
        [[JVal.jstr "Hello"]]).newValues = [[JVal.jstr "Network Error: connection reset"]] ∧
    (translateRange [] (fun _ _ => HttpResponse.netFail "connection reset")
        [[JVal.jstr "Hello"]]).totalErrors = 0 :=
  ⟨rfl, rfl⟩

/-- **C2** (counterexample): the claim says every successfully parsed
outcome array — strict parse or fallback array-substring extraction — has
exactly N entries for N input texts. For the batch `["a", "b", "c"]` and a
response whose body is not bare JSON but contains the array substring
`["x","y"]`, the fallback extraction succeeds and the client returns a
2-element outcome array for 3 input texts. -/
theorem c2_fallback_length_counterexample :
    (callGeminiBatch ["a", "b", "c"] (fun _ => HttpResponse.ok "note: [\"x\",\"y\"]")).1
        = [JVal.jstr "x", JVal.jstr "y"] ∧
    ¬ ([JVal.jstr "x", JVal.jstr "y"].length = ["a", "b", "c"].length) :=
  ⟨rfl, by decide⟩

/-- **C2** (amended): whenever the strict parse of lines 574-576 accepts
the cleaned response — an array of exactly the batch length, or a bare
string when exactly one text was sent — the client returns that outcome,
and it has exactly N entries for N input texts. Only the fallback
array-substring path can return an array of a different length. -/
theorem c2_strict_parse_length (texts : List String) (resp : String) (v : JVal)
    (out : List JVal) (hparse : jsonParse (stripFence resp) = some v)
    (haccept : strictAccept texts v = some out) :
    processResponse texts resp = out ∧ out.length = texts.length := by
  constructor
  · simp only [processResponse, hparse, haccept]
  · cases v with
    | jarr xs =>
      by_cases hlen : (xs.length == texts.length) = true
      · simp only [strictAccept, hlen, if_true, Option.some.injEq] at haccept
        subst haccept
        exact eq_of_beq hlen
      · simp [strictAccept, hlen] at haccept
    | jstr s =>
      by_cases hone : (texts.length == 1) = true
      · simp only [strictAccept, hone, if_true, Option.some.injEq] at haccept
        subst haccept
        simp [eq_of_beq hone]
      · simp [strictAccept, hone] at haccept
    | jnull => simp [strictAccept] at haccept
    | jbool b => simp [strictAccept] at haccept
    | jnum n => simp [strictAccept] at haccept

/-- Witness for C2 (amended) at a concrete accepted strict parse. -/
theorem c2_strict_parse_length_witness :
    processResponse ["t"] "[\"ok\"]" = [JVal.jstr "ok"] ∧
    [JVal.jstr "ok"].length = ["t"].length :=
  c2_strict_parse_length ["t"] "[\"ok\"]" (JVal.jarr [JVal.jstr "ok"]) [JVal.jstr "ok"] rfl rfl

/-- **C4**: when every request receives a 429 response, the client issues
exactly 3 requests, waits 2^attempt seconds between them (2000 ms then
4000 ms), and then resolves every item of the batch to the
rate-limit-exceeded failure string. -/
theorem c4_rate_limit_retries (texts : List String) (env : Nat → HttpResponse)
    (h : ∀ i, env i = HttpResponse.rate) :
    callGeminiBatch texts env =
      (List.replicate texts.length
        (JVal.jstr "API Error: Rate limit exceeded after 3 retries."), [2000, 4000], 3) := by
  have h0 := h 0
  have h1 := h 1
  have h2 := h 2
  simp [callGeminiBatch, MAX_RETRIES, callGeminiLoop, h0, h1, h2]

/-- Witness for C4: a concrete batch of two texts against an all-429
network. -/
theorem c4_rate_limit_retries_witness :
    callGeminiBatch ["a", "b"] (fun _ => HttpResponse.rate) =
      (List.replicate 2 (JVal.jstr "API Error: Rate limit exceeded after 3 retries."),
        [2000, 4000], 3) :=
  c4_rate_limit_retries ["a", "b"] (fun _ => HttpResponse.rate) (fun _ => rfl)

/-- **C6**: a translated string longer than 32767 characters is truncated
to exactly 32767 characters before being written; shorter values are
written unchanged. -/
theorem c6_truncation (s : String) :
    (s.length > EXCEL_CELL_CHAR_LIMIT →
      truncateVal (JVal.jstr s) = JVal.jstr (jsSubstringTo s EXCEL_CELL_CHAR_LIMIT) ∧
      (jsSubstringTo s EXCEL_CELL_CHAR_LIMIT).length = EXCEL_CELL_CHAR_LIMIT) ∧
    (s.length ≤ EXCEL_CELL_CHAR_LIMIT → truncateVal (JVal.jstr s) = JVal.jstr s) := by
  have hlen : (jsSubstringTo s EXCEL_CELL_CHAR_LIMIT).length = min EXCEL_CELL_CHAR_LIMIT s.length := by
    show (s.data.take EXCEL_CELL_CHAR_LIMIT).length = min EXCEL_CELL_CHAR_LIMIT s.data.length
    exact List.length_take _ _
  constructor
  · intro h
    refine ⟨?_, ?_⟩
    · show (if s.length > EXCEL_CELL_CHAR_LIMIT then JVal.jstr (jsSubstringTo s EXCEL_CELL_CHAR_LIMIT)
        else JVal.jstr s) = JVal.jstr (jsSubstringTo s EXCEL_CELL_CHAR_LIMIT)
      rw [if_pos h]
    · rw [hlen]
      exact Nat.min_eq_left (Nat.le_of_lt h)
  · intro h
    show (if s.length > EXCEL_CELL_CHAR_LIMIT then JVal.jstr (jsSubstringTo s EXCEL_CELL_CHAR_LIMIT)
      else JVal.jstr s) = JVal.jstr s
    rw [if_neg (Nat.not_lt.mpr h)]

/-- Witness for C6: a 40000-character string is truncated, a short string
is unchanged. -/
theorem c6_truncation_witness :
    truncateVal (JVal.jstr (String.mk (List.replicate 40000 'a')))
        = JVal.jstr (jsSubstringTo (String.mk (List.replicate 40000 'a')) EXCEL_CELL_CHAR_LIMIT) ∧
    truncateVal (JVal.jstr "hi") = JVal.jstr "hi" := by
  constructor
  · exact ((c6_truncation (String.mk (List.replicate 40000 'a'))).1
      (by show EXCEL_CELL_CHAR_LIMIT < (List.replicate 40000 'a').length
          rw [List.length_replicate]
          decide)).1
  · exact (c6_truncation "hi").2 (by decide)

/-- **C10**: a falsy element (null, undefined, empty string) at position j
of a successfully parsed outcome is treated as a success whose translation
is the original source text: it is recorded in the unique-text map and the
session cache as its own translation, the error count is unchanged, and —
as the concrete run shows — the original text is written back into the
corresponding cell with zero aggregate errors. -/
theorem c10_falsy_treated_as_original (st : OrchState) (t : String) (res : JVal)
    (h : jvTruthy res = false) :
    processItem t res st =
      { st with uniqueMap := mapSet st.uniqueMap t (some (JVal.jstr t)),
                cache := mapSet st.cache t (JVal.jstr t) } ∧
    (processItem t res st).totalErrors = st.totalErrors ∧
    (translateRange [] (fun _ _ => HttpResponse.ok "[\"\"]")
        [[JVal.jstr "Hello"]]).newValues = [[JVal.jstr "Hello"]] ∧
    (translateRange [] (fun _ _ => HttpResponse.ok "[\"\"]")
        [[JVal.jstr "Hello"]]).totalErrors = 0 ∧
    (translateRange [] (fun _ _ => HttpResponse.ok "[\"\"]")
        [[JVal.jstr "Hello"]]).cache = [("Hello", JVal.jstr "Hello")] := by
  have herr : isErrorResult res = false := by
    cases res with
    | jstr s =>
      have hs : s = "" := by
        have : (s == "") = true := by simpa [jvTruthy] using h
        exact eq_of_beq this
      subst hs; rfl
    | jnull => rfl
    | jbool b => rfl
    | jnum n => rfl
    | jarr xs => rfl
  have hEq : processItem t res st =
      { st with uniqueMap := mapSet st.uniqueMap t (some (JVal.jstr t)),
                cache := mapSet st.cache t (JVal.jstr t) } := by
    simp [processItem, herr, h]
  exact ⟨hEq, by rw [hEq], rfl, rfl, rfl⟩

-- Helper lemmas about batch character sums.

theorem sumLens_nil : sumLens [] = 0 := rfl

theorem sumLens_singleton (t : String) : sumLens [t] = t.length := by
  simp [sumLens]

theorem sumLens_append (a b : List String) : sumLens (a ++ b) = sumLens a + sumLens b := by
  simp [sumLens]

/-- Invariant of the batching loop: starting from a partial batch within
both limits and previously closed batches that are all good, the loop
produces only good batches and concatenates back to the processed texts. -/
theorem buildBatchesAux_spec (ts : List String) :
    ∀ (all : List (List String)) (cur : List String),
      sumLens cur ≤ BATCH_CHAR_LIMIT → cur.length ≤ BATCH_CELL_LIMIT →
      (∀ b ∈ all, goodBatch b) →
      (buildBatchesAux ts all cur (sumLens cur)).join = all.join ++ cur ++ ts ∧
      ∀ b ∈ buildBatchesAux ts all cur (sumLens cur), goodBatch b := by
  induction ts with
  | nil =>
    intro all cur hsum hlen hall
    by_cases hc : cur.isEmpty
    · have hnil : cur = [] := List.isEmpty_iff.mp hc
      subst hnil
      refine ⟨?_, ?_⟩
      · simp [buildBatchesAux]
      · intro b hb
        simp only [buildBatchesAux, List.isEmpty_nil, if_true] at hb
        exact hall b hb
    · refine ⟨?_, ?_⟩
      · simp [buildBatchesAux, hc]
      · intro b hb
        simp only [buildBatchesAux, hc, Bool.false_eq_true, if_false] at hb
        rcases List.mem_append.mp hb with hb | hb
        · exact hall b hb
        · rcases List.mem_singleton.mp hb with rfl
          exact Or.inl ⟨hlen, hsum⟩
  | cons t ts ih =>
    intro all cur hsum hlen hall
    by_cases h1 : t.length > BATCH_CHAR_LIMIT
    · -- the oversized-singleton branch (lines 280-286)
      have step : buildBatchesAux (t :: ts) all cur (sumLens cur)
          = buildBatchesAux ts ((if cur.isEmpty then all else all ++ [cur]) ++ [[t]]) [] (sumLens []) := by
        rw [sumLens_nil]
        simp [buildBatchesAux, h1]
      have hall' : ∀ b ∈ (if cur.isEmpty then all else all ++ [cur]) ++ [[t]], goodBatch b := by
        intro b hb
        rcases List.mem_append.mp hb with hb | hb
        · by_cases hc : cur.isEmpty
          · rw [if_pos hc] at hb
            exact hall b hb
          · rw [if_neg hc] at hb
            rcases List.mem_append.mp hb with hb | hb
            · exact hall b hb
            · rcases List.mem_singleton.mp hb with rfl
              exact Or.inl ⟨hlen, hsum⟩
        · rcases List.mem_singleton.mp hb with rfl
          exact Or.inr ⟨t, rfl, h1⟩
      have hjoin : ((if cur.isEmpty then all else all ++ [cur]) ++ [[t]]).join
          = all.join ++ cur ++ [t] := by
        by_cases hc : cur.isEmpty
        · have hnil : cur = [] := List.isEmpty_iff.mp hc
          subst hnil
          simp
        · rw [if_neg hc]
          simp
      rcases ih ((if cur.isEmpty then all else all ++ [cur]) ++ [[t]]) []
        (by rw [sumLens_nil]; exact Nat.zero_le _) (by simp [BATCH_CELL_LIMIT]) hall' with ⟨hj, hg⟩
      refine ⟨?_, ?_⟩
      · rw [step, hj, hjoin]
        simp
      · intro b hb
        rw [step] at hb
        exact hg b hb
    · by_cases h2 : cur.length > 0 ∧ (sumLens cur + t.length > BATCH_CHAR_LIMIT ∨ cur.length ≥ BATCH_CELL_LIMIT)
      · -- the flush branch (lines 287-291)
        have step : buildBatchesAux (t :: ts) all cur (sumLens cur)
            = buildBatchesAux ts (all ++ [cur]) [t] (sumLens [t]) := by
          rw [sumLens_singleton]
          simp [buildBatchesAux, h1, h2]
        have hall' : ∀ b ∈ all ++ [cur], goodBatch b := by
          intro b hb
          rcases List.mem_append.mp hb with hb | hb
          · exact hall b hb
          · rcases List.mem_singleton.mp hb with rfl
            exact Or.inl ⟨hlen, hsum⟩
        rcases ih (all ++ [cur]) [t]
          (by rw [sumLens_singleton]; exact Nat.le_of_not_lt h1)
          (by simp [BATCH_CELL_LIMIT]) hall' with ⟨hj, hg⟩
        refine ⟨?_, ?_⟩
        · rw [step, hj]
          simp
        · intro b hb
          rw [step] at hb
          exact hg b hb
      · -- the accumulate branch (lines 292-293)
        have hsum' : sumLens (cur ++ [t]) = sumLens cur + t.length := by
          rw [sumLens_append, sumLens_singleton]
        have step : buildBatchesAux (t :: ts) all cur (sumLens cur)
            = buildBatchesAux ts all (cur ++ [t]) (sumLens (cur ++ [t])) := by
          rw [hsum']
          simp [buildBatchesAux, h1, h2]
        have hcursum : sumLens (cur ++ [t]) ≤ BATCH_CHAR_LIMIT := by
          rw [hsum']
          by_cases hc : cur.length > 0
          · have := fun hx => h2 ⟨hc, hx⟩
            rcases Nat.lt_or_ge BATCH_CHAR_LIMIT (sumLens cur + t.length) with hgt | hle
            · exact absurd (Or.inl hgt) this
            · exact hle
          · have hnil : cur = [] := List.length_eq_zero.mp (Nat.eq_zero_of_not_pos hc)
            subst hnil
            rw [sumLens_nil, Nat.zero_add]
            exact Nat.le_of_not_lt h1
        have hcurlen : (cur ++ [t]).length ≤ BATCH_CELL_LIMIT := by
          rw [List.length_append, List.length_singleton]
          by_cases hc : cur.length > 0
          · have := fun hx => h2 ⟨hc, hx⟩
            rcases Nat.lt_or_ge cur.length BATCH_CELL_LIMIT with hlt | hge
            · exact Nat.succ_le_of_lt hlt
            · exact absurd (Or.inr hge) this
          · have hz : cur.length = 0 := Nat.eq_zero_of_not_pos hc
            rw [hz]
            simp [BATCH_CELL_LIMIT]
        rcases ih all (cur ++ [t]) hcursum hcurlen hall with ⟨hj, hg⟩
        refine ⟨?_, ?_⟩
        · rw [step, hj]
          simp
        · intro b hb
          rw [step] at hb
          exact hg b hb

/-- **C3**: the batches produced from an ordered list of texts concatenate
back to the input list exactly, and every batch holds at most 100 items
with at most 15000 total characters, except that a single text longer than
15000 characters forms its own singleton batch. -/
theorem c3_batching_invariant (texts : List String) :
    (buildBatches texts).join = texts ∧
    ∀ b ∈ buildBatches texts,
      (b.length ≤ BATCH_CELL_LIMIT ∧ sumLens b ≤ BATCH_CHAR_LIMIT) ∨
      (∃ t, b = [t] ∧ t.length > BATCH_CHAR_LIMIT) := by
  rcases buildBatchesAux_spec texts [] []
    (by rw [sumLens_nil]; exact Nat.zero_le _) (by simp [BATCH_CELL_LIMIT])
    (by intro b hb; simp at hb) with ⟨hj, hg⟩
  refine ⟨?_, ?_⟩
  · rw [show buildBatches texts = buildBatchesAux texts [] [] (sumLens []) from rfl, hj]
    simp
  · intro b hb
    rw [show buildBatches texts = buildBatchesAux texts [] [] (sumLens []) from rfl] at hb
    exact hg b hb

/-- Witness for C3 at a concrete input. -/
theorem c3_batching_invariant_witness :
    (buildBatches ["hi", "there"]).join = ["hi", "there"] ∧
    ((["hi", "there"].length ≤ BATCH_CELL_LIMIT ∧ sumLens ["hi", "there"] ≤ BATCH_CHAR_LIMIT) ∨
      (∃ t, ["hi", "there"] = [t] ∧ t.length > BATCH_CHAR_LIMIT)) :=
  ⟨(c3_batching_invariant ["hi", "there"]).1,
   (c3_batching_invariant ["hi", "there"]).2 ["hi", "there"] (by decide)⟩

/-- Witness for C10 at a concrete falsy (null) result. -/
theorem c10_falsy_witness :
    (translateRange [] (fun _ _ => HttpResponse.ok "[\"\"]")
        [[JVal.jstr "Hello"]]).totalErrors = 0 :=
  (c10_falsy_treated_as_original
    { uniqueMap := [], cache := [], totalErrors := 0, firstError := none }
    "x" JVal.jnull rfl).2.2.2.1

-- Helper lemmas: characterization of the extraction step.

theorem extractRow_mem_iff (i : Nat) (row : List JVal) :
    ∀ (j0 r c : Nat) (t : String),
      ((r, c, t) ∈ extractRow i j0 row ↔
        r = i ∧ ∃ k, c = j0 + k ∧ row.get? k = some (JVal.jstr t) ∧ (jsTrim t == "") = false) := by
  induction row with
  | nil =>
    intro j0 r c t
    simp [extractRow]
  | cons cv rest ihr =>
    intro j0 r c t
    cases cv with
    | jstr s =>
      by_cases hs : (jsTrim s == "") = true
      · rw [show extractRow i j0 (JVal.jstr s :: rest) = extractRow i (j0 + 1) rest from by
          simp [extractRow, hs]]
        rw [ihr (j0 + 1) r c t]
        constructor
        · rintro ⟨hr, k, hc, hk, ht⟩
          exact ⟨hr, k + 1, by omega, by simpa using hk, ht⟩
        · rintro ⟨hr, k, hc, hk, ht⟩
          cases k with
          | zero =>
            rw [List.get?_cons_zero] at hk
            have hst : s = t := by
              have := Option.some.inj hk
              exact JVal.jstr.inj this
            subst hst
            rw [hs] at ht
            cases ht
          | succ k' =>
            rw [List.get?_cons_succ] at hk
            exact ⟨hr, k', by omega, hk, ht⟩
      · have hs' : (jsTrim s == "") = false := Bool.eq_false_iff.mpr hs
        rw [show extractRow i j0 (JVal.jstr s :: rest)
            = (i, j0, s) :: extractRow i (j0 + 1) rest from by
          simp [extractRow, hs']]
        rw [List.mem_cons, ihr (j0 + 1) r c t]
        constructor
        · rintro (heq | ⟨hr, k, hc, hk, ht⟩)
          · rcases Prod.mk.injEq .. ▸ heq with ⟨hr, hct⟩
            rcases Prod.mk.inj hct with ⟨hc, hts⟩
            exact ⟨hr, 0, by omega, by rw [← hts]; rfl, by rw [hts]; exact hs'⟩
          · exact ⟨hr, k + 1, by omega, by simpa using hk, ht⟩
        · rintro ⟨hr, k, hc, hk, ht⟩
          cases k with
          | zero =>
            rw [List.get?_cons_zero] at hk
            have hst : s = t := JVal.jstr.inj (Option.some.inj hk)
            left
            rw [hr, hst]
            simp [hc]
          | succ k' =>
            rw [List.get?_cons_succ] at hk
            exact Or.inr ⟨hr, k', by omega, hk, ht⟩
    | jnull =>
      rw [show extractRow i j0 (JVal.jnull :: rest) = extractRow i (j0 + 1) rest from rfl]
      rw [ihr (j0 + 1) r c t]
      constructor
      · rintro ⟨hr, k, hc, hk, ht⟩
        exact ⟨hr, k + 1, by omega, by simpa using hk, ht⟩
      · rintro ⟨hr, k, hc, hk, ht⟩
        cases k with
        | zero => rw [List.get?_cons_zero] at hk; cases Option.some.inj hk
        | succ k' =>
          rw [List.get?_cons_succ] at hk
          exact ⟨hr, k', by omega, hk, ht⟩
    | jbool b =>
      rw [show extractRow i j0 (JVal.jbool b :: rest) = extractRow i (j0 + 1) rest from rfl]
      rw [ihr (j0 + 1) r c t]
      constructor
      · rintro ⟨hr, k, hc, hk, ht⟩
        exact ⟨hr, k + 1, by omega, by simpa using hk, ht⟩
      · rintro ⟨hr, k, hc, hk, ht⟩
        cases k with
        | zero => rw [List.get?_cons_zero] at hk; cases Option.some.inj hk
        | succ k' =>
          rw [List.get?_cons_succ] at hk
          exact ⟨hr, k', by omega, hk, ht⟩
    | jnum n =>
      rw [show extractRow i j0 (JVal.jnum n :: rest) = extractRow i (j0 + 1) rest from rfl]
      rw [ihr (j0 + 1) r c t]
      constructor
      · rintro ⟨hr, k, hc, hk, ht⟩
        exact ⟨hr, k + 1, by omega, by simpa using hk, ht⟩
      · rintro ⟨hr, k, hc, hk, ht⟩
        cases k with
        | zero => rw [List.get?_cons_zero] at hk; cases Option.some.inj hk
        | succ k' =>
          rw [List.get?_cons_succ] at hk
          exact ⟨hr, k', by omega, hk, ht⟩
    | jarr xs =>
      rw [show extractRow i j0 (JVal.jarr xs :: rest) = extractRow i (j0 + 1) rest from rfl]
      rw [ihr (j0 + 1) r c t]
      constructor
      · rintro ⟨hr, k, hc, hk, ht⟩
        exact ⟨hr, k + 1, by omega, by simpa using hk, ht⟩
      · rintro ⟨hr, k, hc, hk, ht⟩
        cases k with
        | zero => rw [List.get?_cons_zero] at hk; cases Option.some.inj hk
        | succ k' =>
          rw [List.get?_cons_succ] at hk
          exact ⟨hr, k', by omega, hk, ht⟩

theorem extractRows_mem_iff (rows : List (List JVal)) :
    ∀ (i0 r c : Nat) (t : String),
      ((r, c, t) ∈ extractRows i0 rows ↔
        ∃ d row, r = i0 + d ∧ rows.get? d = some row ∧
          row.get? c = some (JVal.jstr t) ∧ (jsTrim t == "") = false) := by
  induction rows with
  | nil =>
    intro i0 r c t
    simp [extractRows]
  | cons row rest ihr =>
    intro i0 r c t
    rw [show extractRows i0 (row :: rest) = extractRow i0 0 row ++ extractRows (i0 + 1) rest from rfl]
    rw [List.mem_append, extractRow_mem_iff i0 row 0 r c t, ihr (i0 + 1) r c t]
    constructor
    · rintro (⟨hr, k, hc, hk, ht⟩ | ⟨d, row', hr, hd, hk, ht⟩)
      · exact ⟨0, row, by omega, rfl, by rwa [show c = k by omega], ht⟩
      · exact ⟨d + 1, row', by omega, by simpa using hd, hk, ht⟩
    · rintro ⟨d, row', hr, hd, hk, ht⟩
      cases d with
      | zero =>
        rw [List.get?_cons_zero] at hd
        rcases Option.some.inj hd with rfl
        exact Or.inl ⟨by omega, c, by omega, hk, ht⟩
      | succ d' =>
        rw [List.get?_cons_succ] at hd
        exact Or.inr ⟨d', row', by omega, hd, hk, ht⟩

theorem extractCells_mem_iff (grid : List (List JVal)) (r c : Nat) (t : String) :
    (r, c, t) ∈ extractCells grid ↔
      cellAt grid r c = some (JVal.jstr t) ∧ (jsTrim t == "") = false := by
  rw [show extractCells grid = extractRows 0 grid from rfl, extractRows_mem_iff grid 0 r c t]
  constructor
  · rintro ⟨d, row, hr, hd, hk, ht⟩
    refine ⟨?_, ht⟩
    have hdr : d = r := by omega
    subst hdr
    show (grid.get? d).bind (fun row => row.get? c) = some (JVal.jstr t)
    rw [hd]
    exact hk
  · rintro ⟨hcell, ht⟩
    rw [cellAt] at hcell
    cases hrow : grid.get? r with
    | none => rw [hrow] at hcell; cases hcell
    | some row =>
      rw [hrow] at hcell
      exact ⟨r, row, by omega, hrow, hcell, ht⟩

theorem translatableAt_of_mem_extract (grid : List (List JVal)) (r c : Nat) (t : String)
    (h : (r, c, t) ∈ extractCells grid) : translatableAt grid r c = true := by
  rcases (extractCells_mem_iff grid r c t).mp h with ⟨hcell, ht⟩
  rw [translatableAt, hcell]
  simp [ht]

-- Helper lemmas: shape preservation of cell writes and reconciliation.

theorem setCellRow_length (v : JVal) : ∀ (row : List JVal) (c : Nat),
    (setCellRow row c v).length = row.length
  | [], _ => rfl
  | _ :: xs, 0 => rfl
  | x :: xs, n + 1 => by
    rw [show setCellRow (x :: xs) (n + 1) v = x :: setCellRow xs n v from rfl]
    simp [setCellRow_length v xs n]

theorem setCell_length (v : JVal) : ∀ (g : List (List JVal)) (r c : Nat),
    (setCell g r c v).length = g.length
  | [], _, _ => rfl
  | row :: rows, 0, c => by
    rw [show setCell (row :: rows) 0 c v = setCellRow row c v :: rows from rfl]
    rfl
  | row :: rows, r + 1, c => by
    rw [show setCell (row :: rows) (r + 1) c v = row :: setCell rows r c v from rfl]
    simp [setCell_length v rows r c]

theorem setCell_row_lengths (v : JVal) : ∀ (g : List (List JVal)) (r c i : Nat),
    ((setCell g r c v).get? i).map List.length = (g.get? i).map List.length
  | [], _, _, _ => rfl
  | row :: rows, 0, c, 0 => by
    rw [show setCell (row :: rows) 0 c v = setCellRow row c v :: rows from rfl]
    simp [setCellRow_length]
  | row :: rows, 0, c, i + 1 => by
    rw [show setCell (row :: rows) 0 c v = setCellRow row c v :: rows from rfl]
    simp
  | row :: rows, r + 1, c, 0 => by
    rw [show setCell (row :: rows) (r + 1) c v = row :: setCell rows r c v from rfl]
    rfl
  | row :: rows, r + 1, c, i + 1 => by
    rw [show setCell (row :: rows) (r + 1) c v = row :: setCell rows r c v from rfl]
    show ((setCell rows r c v).get? i).map List.length = (rows.get? i).map List.length
    exact setCell_row_lengths v rows r c i

theorem setCellRow_get?_ne (v : JVal) : ∀ (row : List JVal) (c j : Nat), j ≠ c →
    (setCellRow row c v).get? j = row.get? j
  | [], _, _, _ => rfl
  | x :: xs, 0, 0, h => absurd rfl h
  | x :: xs, 0, j + 1, _ => by
    rw [show setCellRow (x :: xs) 0 v = v :: xs from rfl]
    rfl
  | x :: xs, c + 1, 0, _ => by
    rw [show setCellRow (x :: xs) (c + 1) v = x :: setCellRow xs c v from rfl]
    rfl
  | x :: xs, c + 1, j + 1, h => by
    rw [show setCellRow (x :: xs) (c + 1) v = x :: setCellRow xs c v from rfl]
    have hne : j ≠ c := fun hc => h (by rw [hc])
    show (setCellRow xs c v).get? j = xs.get? j
    exact setCellRow_get?_ne v xs c j hne

theorem setCell_cellAt_ne (v : JVal) : ∀ (g : List (List JVal)) (r c i j : Nat),
    ¬(i = r ∧ j = c) → cellAt (setCell g r c v) i j = cellAt g i j
  | [], _, _, _, _, _ => rfl
  | row :: rows, 0, c, 0, j, h => by
    have hj : j ≠ c := fun hc => h ⟨rfl, hc⟩
    rw [show setCell (row :: rows) 0 c v = setCellRow row c v :: rows from rfl]
    show (setCellRow row c v).get? j = row.get? j
    exact setCellRow_get?_ne v row c j hj
  | row :: rows, 0, c, i + 1, j, _ => by
    rw [show setCell (row :: rows) 0 c v = setCellRow row c v :: rows from rfl]
    rfl
  | row :: rows, r + 1, c, 0, j, _ => by
    rw [show setCell (row :: rows) (r + 1) c v = row :: setCell rows r c v from rfl]
    rfl
  | row :: rows, r + 1, c, i + 1, j, h => by
    rw [show setCell (row :: rows) (r + 1) c v = row :: setCell rows r c v from rfl]
    have h' : ¬(i = r ∧ j = c) := fun hc => h ⟨by rw [hc.1], hc.2⟩
    show cellAt (setCell rows r c v) i j = cellAt rows i j
    exact setCell_cellAt_ne v rows r c i j h'

theorem reconcile_length (umap : List (String × Option JVal)) :
    ∀ (cells : List (Nat × Nat × String)) (g : List (List JVal)),
      (reconcile cells umap g).length = g.length
  | [], g => rfl
  | cell :: cells, g => by
    rw [show reconcile (cell :: cells) umap g = reconcile cells umap
      (match mapGet umap cell.2.2 with
        | some (some v) => if jvTruthy v then setCell g cell.1 cell.2.1 (truncateVal v) else g
        | _ => g) from rfl]
    rw [reconcile_length umap cells]
    cases hv : mapGet umap cell.2.2 with
    | none => rfl
    | some ov =>
      cases ov with
      | none => rfl
      | some v =>
        by_cases ht : jvTruthy v = true
        · simp [ht, setCell_length]
        · simp [Bool.eq_false_iff.mpr ht]

theorem reconcile_row_lengths (umap : List (String × Option JVal)) :
    ∀ (cells : List (Nat × Nat × String)) (g : List (List JVal)) (i : Nat),
      ((reconcile cells umap g).get? i).map List.length = (g.get? i).map List.length
  | [], g, i => rfl
  | cell :: cells, g, i => by
    rw [show reconcile (cell :: cells) umap g = reconcile cells umap
      (match mapGet umap cell.2.2 with
        | some (some v) => if jvTruthy v then setCell g cell.1 cell.2.1 (truncateVal v) else g
        | _ => g) from rfl]
    rw [reconcile_row_lengths umap cells]
    cases hv : mapGet umap cell.2.2 with
    | none => rfl
    | some ov =>
      cases ov with
      | none => rfl
      | some v =>
        by_cases ht : jvTruthy v = true
        · show Option.map List.length
            ((if jvTruthy v = true then setCell g cell.1 cell.2.1 (truncateVal v) else g).get? i)
              = Option.map List.length (g.get? i)
          rw [if_pos ht]
          exact setCell_row_lengths (truncateVal v) g cell.1 cell.2.1 i
        · simp [Bool.eq_false_iff.mpr ht]

theorem reconcile_untouched (umap : List (String × Option JVal)) :
    ∀ (cells : List (Nat × Nat × String)) (g : List (List JVal)) (i j : Nat),
      (∀ x ∈ cells, ¬(i = x.1 ∧ j = x.2.1)) →
      cellAt (reconcile cells umap g) i j = cellAt g i j
  | [], g, i, j, _ => rfl
  | cell :: cells, g, i, j, h => by
    rw [show reconcile (cell :: cells) umap g = reconcile cells umap
      (match mapGet umap cell.2.2 with
        | some (some v) => if jvTruthy v then setCell g cell.1 cell.2.1 (truncateVal v) else g
        | _ => g) from rfl]
    rw [reconcile_untouched umap cells _ i j (fun x hx => h x (List.mem_cons_of_mem cell hx))]
    cases hv : mapGet umap cell.2.2 with
    | none => rfl
    | some ov =>
      cases ov with
      | none => rfl
      | some v =>
        by_cases ht : jvTruthy v = true
        · simp only [ht, if_true]
          exact setCell_cellAt_ne (truncateVal v) g cell.1 cell.2.1 i j
            (h cell (List.mem_cons_self cell cells))
        · simp [Bool.eq_false_iff.mpr ht]

/-- **C5**: for every input grid the reconciled output grid has exactly as
many rows, each output row has exactly as many columns as the
corresponding input row, and every non-translatable cell (numbers,
booleans, empties, whitespace-only strings) is copied through
unmodified. -/
theorem c5_grid_shape (cache : List (String × JVal)) (envs : Nat → Nat → HttpResponse)
    (grid : List (List JVal)) :
    ((translateRange cache envs grid).newValues).length = grid.length ∧
    (∀ i, (((translateRange cache envs grid).newValues).get? i).map List.length
        = (grid.get? i).map List.length) ∧
    (∀ r c, translatableAt grid r c = false →
      cellAt ((translateRange cache envs grid).newValues) r c = cellAt grid r c) := by
  by_cases hempty : (extractCells grid).isEmpty
  · rw [show (translateRange cache envs grid).newValues = grid from by
      simp [translateRange, hempty]]
    exact ⟨rfl, fun _ => rfl, fun _ _ _ => rfl⟩
  · have hnv : (translateRange cache envs grid).newValues
        = reconcile (extractCells grid)
            (runBatches envs
              (buildBatches ((uniqueKeys ((extractCells grid).map (fun c => c.2.2))).filter
                (fun t => !(mapHas cache t))))
              { uniqueMap := (uniqueKeys ((extractCells grid).map (fun c => c.2.2))).map
                  (fun t => (t, mapGet cache t)),
                cache := cache, totalErrors := 0, firstError := none }).uniqueMap grid := by
      simp [translateRange, hempty]
    rw [hnv]
    refine ⟨reconcile_length _ _ _, fun i => reconcile_row_lengths _ _ _ i, ?_⟩
    intro r c hfalse
    refine reconcile_untouched _ _ _ r c ?_
    rintro x hx ⟨hr, hc⟩
    have htrue : translatableAt grid x.1 x.2.1 = true :=
      translatableAt_of_mem_extract grid x.1 x.2.1 x.2.2 hx
    rw [← hr, ← hc] at htrue
    rw [hfalse] at htrue
    cases htrue

/-- Witness for C5: a concrete grid holding a number and a string. -/
theorem c5_grid_shape_witness :
    ((translateRange [] (fun _ _ => HttpResponse.rate)
        [[JVal.jnum 5, JVal.jstr "Hi"]]).newValues).length = 1 ∧
    cellAt ((translateRange [] (fun _ _ => HttpResponse.rate)
        [[JVal.jnum 5, JVal.jstr "Hi"]]).newValues) 0 0
      = cellAt [[JVal.jnum 5, JVal.jstr "Hi"]] 0 0 :=
  ⟨(c5_grid_shape [] (fun _ _ => HttpResponse.rate) [[JVal.jnum 5, JVal.jstr "Hi"]]).1,
   (c5_grid_shape [] (fun _ _ => HttpResponse.rate) [[JVal.jnum 5, JVal.jstr "Hi"]]).2.2 0 0 rfl⟩

-- Helper lemmas: row-major ordering of the extraction.

theorem extractRow_fst_eq (i j0 : Nat) (row : List JVal) :
    ∀ x ∈ extractRow i j0 row, x.1 = i := by
  intro x hx
  exact ((extractRow_mem_iff i row j0 x.1 x.2.1 x.2.2).mp hx).1

theorem extractRow_col_ge (i j0 : Nat) (row : List JVal) :
    ∀ x ∈ extractRow i j0 row, j0 ≤ x.2.1 := by
  intro x hx
  rcases ((extractRow_mem_iff i row j0 x.1 x.2.1 x.2.2).mp hx).2 with ⟨k, hc, -, -⟩
  omega

theorem extractRow_pairwise (i : Nat) (row : List JVal) :
    ∀ j0 : Nat, (extractRow i j0 row).Pairwise rowMajorLt := by
  induction row with
  | nil =>
    intro j0
    rw [show extractRow i j0 [] = [] from rfl]
    exact List.Pairwise.nil
  | cons cv rest ih =>
    intro j0
    cases cv with
    | jstr s =>
      by_cases hs : (jsTrim s == "") = true
      · rw [show extractRow i j0 (JVal.jstr s :: rest) = extractRow i (j0 + 1) rest from by
          simp [extractRow, hs]]
        exact ih (j0 + 1)
      · have hs' : (jsTrim s == "") = false := Bool.eq_false_iff.mpr hs
        rw [show extractRow i j0 (JVal.jstr s :: rest)
            = (i, j0, s) :: extractRow i (j0 + 1) rest from by
          simp [extractRow, hs']]
        refine List.Pairwise.cons ?_ (ih (j0 + 1))
        intro y hy
        have hfst := extractRow_fst_eq i (j0 + 1) rest y hy
        have hcol := extractRow_col_ge i (j0 + 1) rest y hy
        refine Or.inr ⟨hfst.symm, ?_⟩
        show j0 < y.2.1
        omega
    | jnull => exact ih (j0 + 1)
    | jbool b => exact ih (j0 + 1)
    | jnum n => exact ih (j0 + 1)
    | jarr xs => exact ih (j0 + 1)

theorem extractRows_fst_ge (rows : List (List JVal)) :
    ∀ (i0 : Nat), ∀ x ∈ extractRows i0 rows, i0 ≤ x.1 := by
  induction rows with
  | nil =>
    intro i0 x hx
    rw [show extractRows i0 [] = [] from rfl] at hx
    cases hx
  | cons row rest ih =>
    intro i0 x hx
    rcases List.mem_append.mp hx with hx | hx
    · rw [extractRow_fst_eq i0 0 row x hx]
    · have := ih (i0 + 1) x hx
      omega

theorem extractRows_pairwise (rows : List (List JVal)) :
    ∀ i0 : Nat, (extractRows i0 rows).Pairwise rowMajorLt := by
  induction rows with
  | nil =>
    intro i0
    exact List.Pairwise.nil
  | cons row rest ih =>
    intro i0
    rw [show extractRows i0 (row :: rest) = extractRow i0 0 row ++ extractRows (i0 + 1) rest from rfl]
    refine List.pairwise_append.mpr ⟨extractRow_pairwise i0 row 0, ih (i0 + 1), ?_⟩
    intro a ha b hb
    have ha1 := extractRow_fst_eq i0 0 row a ha
    have hb1 := extractRows_fst_ge rest (i0 + 1) b hb
    exact Or.inl (by omega)

-- Helper lemmas: first-seen order of the unique-text keys.

theorem strBeqDecide (x t : String) : (x == t) = decide (x = t) := by
  by_cases h : x = t
  · subst h
    simp
  · simp [h]

theorem notContains_append_singleton (acc : List String) (t x : String) :
    (!((acc ++ [t]).contains x)) = ((!(acc.contains x)) && (!(x == t))) := by
  simp [strBeqDecide]

theorem uniqueKeys_foldl (ts : List String) :
    ∀ acc : List String,
      ts.foldl (fun acc t => if acc.contains t then acc else acc ++ [t]) acc
        = acc ++ firstSeenSpec (ts.filter (fun t => !(acc.contains t))) := by
  induction ts with
  | nil =>
    intro acc
    simp [firstSeenSpec]
  | cons t ts ih =>
    intro acc
    rw [List.foldl_cons]
    by_cases hc : acc.contains t = true
    · have htmem : t ∈ acc := by simpa using hc
      rw [if_pos hc, ih acc]
      rw [show (t :: ts).filter (fun x => !(acc.contains x))
          = ts.filter (fun x => !(acc.contains x)) from by
        rw [List.filter_cons]
        simp [htmem]]
    · have htmem : t ∉ acc := by simpa using hc
      rw [if_neg hc, ih (acc ++ [t])]
      rw [show (t :: ts).filter (fun x => !(acc.contains x))
          = t :: ts.filter (fun x => !(acc.contains x)) from by
        rw [List.filter_cons]
        simp [htmem]]
      rw [show firstSeenSpec (t :: ts.filter (fun x => !(acc.contains x)))
          = t :: firstSeenSpec ((ts.filter (fun x => !(acc.contains x))).filter
              (fun x => !(x == t))) from by
        rw [firstSeenSpec]]
      rw [List.filter_filter]
      rw [show ts.filter (fun x => !((acc ++ [t]).contains x))
          = ts.filter (fun a => (!(a == t)) && (!(acc.contains a))) from by
        refine List.filter_congr ?_
        intro x hx
        rw [notContains_append_singleton]
        exact Bool.and_comm _ _]
      simp

theorem uniqueKeys_eq_firstSeen (texts : List String) :
    uniqueKeys texts = firstSeenSpec texts := by
  rw [show uniqueKeys texts
      = texts.foldl (fun acc t => if acc.contains t then acc else acc ++ [t]) [] from rfl]
  rw [uniqueKeys_foldl texts []]
  simp

/-- **C7**: the extraction selects exactly the cells holding a string with
non-empty trimmed form (numeric, boolean, blank and whitespace-only cells
are never queued), lists them in strict row-major order (column-major
within a row), and the unique-text keys are the extracted texts keyed by
exact string value in first-seen order. -/
theorem c7_extraction (grid : List (List JVal)) :
    (∀ r c t, (r, c, t) ∈ extractCells grid ↔
      (cellAt grid r c = some (JVal.jstr t) ∧ (jsTrim t == "") = false)) ∧
    (extractCells grid).Pairwise rowMajorLt ∧
    uniqueKeys ((extractCells grid).map (fun x => x.2.2))
      = firstSeenSpec ((extractCells grid).map (fun x => x.2.2)) :=
  ⟨fun r c t => extractCells_mem_iff grid r c t,
   extractRows_pairwise grid 0,
   uniqueKeys_eq_firstSeen _⟩

/-- Witness for C7 on the spec's Scenario 1 grid. -/
theorem c7_extraction_witness :
    (0, 0, "Hello") ∈ extractCells
      [[JVal.jstr "Hello", JVal.jnum 5], [JVal.jstr "", JVal.jstr "World"]] ∧
    (extractCells [[JVal.jstr "Hello", JVal.jnum 5],
      [JVal.jstr "", JVal.jstr "World"]]).Pairwise rowMajorLt :=
  ⟨((c7_extraction [[JVal.jstr "Hello", JVal.jnum 5],
      [JVal.jstr "", JVal.jstr "World"]]).1 0 0 "Hello").mpr ⟨rfl, rfl⟩,
   (c7_extraction [[JVal.jstr "Hello", JVal.jnum 5],
      [JVal.jstr "", JVal.jstr "World"]]).2.1⟩

-- Helper lemmas: the session cache only grows, and successes enter it.

theorem firstSeenSpec_mem_aux (n : Nat) :
    ∀ l : List String, l.length ≤ n → ∀ x ∈ firstSeenSpec l, x ∈ l := by
  induction n with
  | zero =>
    intro l hl x hx
    have hnil : l = [] := List.length_eq_zero.mp (Nat.le_zero.mp hl)
    subst hnil
    rw [show firstSeenSpec [] = [] from by rw [firstSeenSpec]] at hx
    cases hx
  | succ n ihn =>
    intro l hl x hx
    cases l with
    | nil =>
      rw [show firstSeenSpec [] = [] from by rw [firstSeenSpec]] at hx
      cases hx
    | cons t ts =>
      rw [show firstSeenSpec (t :: ts)
          = t :: firstSeenSpec (ts.filter (fun y => !(y == t))) from by rw [firstSeenSpec]] at hx
      rcases List.mem_cons.mp hx with rfl | hx
      · exact List.mem_cons_self _ _
      · have hlen : (ts.filter (fun y => !(y == t))).length ≤ n :=
          le_trans (List.length_filter_le _ _) (by simpa using hl)
        exact List.mem_cons_of_mem t (List.mem_of_mem_filter (ihn _ hlen x hx))

theorem firstSeenSpec_nodup_aux (n : Nat) :
    ∀ l : List String, l.length ≤ n → (firstSeenSpec l).Nodup := by
  induction n with
  | zero =>
    intro l hl
    have hnil : l = [] := List.length_eq_zero.mp (Nat.le_zero.mp hl)
    subst hnil
    rw [show firstSeenSpec [] = [] from by rw [firstSeenSpec]]
    exact List.nodup_nil
  | succ n ihn =>
    intro l hl
    cases l with
    | nil =>
      rw [show firstSeenSpec [] = [] from by rw [firstSeenSpec]]
      exact List.nodup_nil
    | cons t ts =>
      rw [show firstSeenSpec (t :: ts)
          = t :: firstSeenSpec (ts.filter (fun y => !(y == t))) from by rw [firstSeenSpec]]
      have hlen : (ts.filter (fun y => !(y == t))).length ≤ n :=
        le_trans (List.length_filter_le _ _) (by simpa using hl)
      refine List.Nodup.cons ?_ (ihn _ hlen)
      intro hmem
      have hin := firstSeenSpec_mem_aux n _ hlen t hmem
      have := (List.mem_filter.mp hin).2
      simp at this

theorem uniqueKeys_nodup (texts : List String) : (uniqueKeys texts).Nodup := by
  rw [uniqueKeys_eq_firstSeen]
  exact firstSeenSpec_nodup_aux texts.length texts (Nat.le_refl _)

theorem mapHas_mapSet_self (m : List (String × JVal)) (k : String) (v : JVal) :
    mapHas (mapSet m k v) k = true := by
  by_cases h : mapHas m k = true
  · rw [show mapSet m k v = m.map (fun p => if p.1 == k then (k, v) else p) from by
      rw [mapSet, if_pos h]]
    rcases List.any_eq_true.mp h with ⟨p, hp, hpk⟩
    refine List.any_eq_true.mpr ⟨(k, v), List.mem_map.mpr ⟨p, hp, by rw [if_pos hpk]⟩, ?_⟩
    simp
  · rw [show mapSet m k v = m ++ [(k, v)] from by
      rw [mapSet, if_neg h]]
    refine List.any_eq_true.mpr ⟨(k, v), List.mem_append_right _ (List.mem_singleton_self _), ?_⟩
    simp

theorem mapHas_mapSet_mono (m : List (String × JVal)) (k : String) (v : JVal) (t : String)
    (h : mapHas m t = true) : mapHas (mapSet m k v) t = true := by
  rcases List.any_eq_true.mp h with ⟨p, hp, hpt⟩
  by_cases hk : mapHas m k = true
  · rw [show mapSet m k v = m.map (fun p => if p.1 == k then (k, v) else p) from by
      rw [mapSet, if_pos hk]]
    by_cases hpk : (p.1 == k) = true
    · have h1 : p.1 = k := eq_of_beq hpk
      have h2 : p.1 = t := eq_of_beq hpt
      refine List.any_eq_true.mpr ⟨(k, v), List.mem_map.mpr ⟨p, hp, by rw [if_pos hpk]⟩, ?_⟩
      show (k == t) = true
      rw [← h1, h2]
      simp
    · refine List.any_eq_true.mpr ⟨p, List.mem_map.mpr ⟨p, hp, by
        rw [if_neg (by simpa using hpk)]⟩, hpt⟩
  · rw [show mapSet m k v = m ++ [(k, v)] from by
      rw [mapSet, if_neg hk]]
    exact List.any_eq_true.mpr ⟨p, List.mem_append_left _ hp, hpt⟩

theorem processItem_cache_has (t : String) (res : JVal) (st : OrchState)
    (h : isErrorResult res = false) : mapHas (processItem t res st).cache t = true := by
  rw [show (processItem t res st).cache
      = mapSet st.cache t (if jvTruthy res then res else JVal.jstr t) from by
    simp [processItem, h]]
  exact mapHas_mapSet_self _ _ _

theorem processItem_cache_mono (t : String) (res : JVal) (st : OrchState) (x : String)
    (h : mapHas st.cache x = true) : mapHas (processItem t res st).cache x = true := by
  by_cases herr : isErrorResult res = true
  · rw [show (processItem t res st).cache = st.cache from by simp [processItem, herr]]
    exact h
  · rw [show (processItem t res st).cache
        = mapSet st.cache t (if jvTruthy res then res else JVal.jstr t) from by
      simp [processItem, Bool.eq_false_iff.mpr herr]]
    exact mapHas_mapSet_mono _ _ _ _ h

theorem foldl_processItem_cache_mono (batch : List String) (results : List JVal) :
    ∀ (js : List Nat) (st : OrchState) (x : String), mapHas st.cache x = true →
      mapHas ((js.foldl
        (fun st' j => processItem (batch.getD j "") (results.getD j JVal.jnull) st') st).cache)
          x = true := by
  intro js
  induction js with
  | nil => intro st x h; exact h
  | cons j js ih =>
    intro st x h
    rw [List.foldl_cons]
    exact ih _ x (processItem_cache_mono _ _ st x h)

theorem runBatches_cache_mono (envs : Nat → Nat → HttpResponse) (batches : List (List String)) :
    ∀ (st : OrchState) (x : String), mapHas st.cache x = true →
      mapHas (runBatches envs batches st).cache x = true := by
  have hgen : ∀ (l : List (List String × Nat)) (st : OrchState) (x : String),
      mapHas st.cache x = true →
      mapHas ((l.foldl (fun st bi =>
        let batch := bi.1
        let results := (callGeminiBatch batch (envs bi.2)).1
        (List.range batch.length).foldl
          (fun st' j => processItem (batch.getD j "") (results.getD j JVal.jnull) st') st)
        st).cache) x = true := by
    intro l
    induction l with
    | nil => intro st x h; exact h
    | cons b l ih =>
      intro st x h
      rw [List.foldl_cons]
      exact ih _ x (foldl_processItem_cache_mono b.1 _ _ _ x h)
  intro st x h
  exact hgen (batches.zip (List.range batches.length)) st x h

/-- **C8**: within a session with an unchanged target language, the
network client is invoked at most once per unique source text: the texts
sent to the API within one run are pairwise distinct, a text present in
the session cache is never sent to the API, every non-error batch result
for a text puts that text into the cache, and cache entries survive a run
— so a text that was translated once is resolved from the cache, without
a network call, in every later run. -/
theorem c8_cache_idempotence (cache0 : List (String × JVal)) (envs : Nat → Nat → HttpResponse)
    (grid : List (List JVal)) :
    ((translateRange cache0 envs grid).fetched).Nodup ∧
    (∀ t, mapHas cache0 t = true → t ∉ (translateRange cache0 envs grid).fetched) ∧
    (∀ (st : OrchState) (t : String) (res : JVal), isErrorResult res = false →
      mapHas (processItem t res st).cache t = true) ∧
    (∀ t, mapHas cache0 t = true → mapHas (translateRange cache0 envs grid).cache t = true) := by
  by_cases he : (extractCells grid).isEmpty
  · refine ⟨?_, ?_, ?_, ?_⟩
    · rw [show (translateRange cache0 envs grid).fetched = [] from by simp [translateRange, he]]
      exact List.nodup_nil
    · intro t _ hmem
      rw [show (translateRange cache0 envs grid).fetched = [] from by
        simp [translateRange, he]] at hmem
      cases hmem
    · intro st t res h
      exact processItem_cache_has t res st h
    · intro t h
      rw [show (translateRange cache0 envs grid).cache = cache0 from by simp [translateRange, he]]
      exact h
  · have hfetch : (translateRange cache0 envs grid).fetched
        = (uniqueKeys ((extractCells grid).map (fun c => c.2.2))).filter
            (fun t => !(mapHas cache0 t)) := by
      simp [translateRange, he]
    refine ⟨?_, ?_, ?_, ?_⟩
    · rw [hfetch]
      exact (uniqueKeys_nodup _).filter _
    · intro t h hmem
      rw [hfetch] at hmem
      have := (List.mem_filter.mp hmem).2
      rw [h] at this
      simp at this
    · intro st t res h
      exact processItem_cache_has t res st h
    · intro t h
      rw [show (translateRange cache0 envs grid).cache
          = (runBatches envs
              (buildBatches ((uniqueKeys ((extractCells grid).map (fun c => c.2.2))).filter
                (fun t => !(mapHas cache0 t))))
              { uniqueMap := (uniqueKeys ((extractCells grid).map (fun c => c.2.2))).map
                  (fun t => (t, mapGet cache0 t)),
                cache := cache0, totalErrors := 0, firstError := none }).cache from by
        simp [translateRange, he]]
      exact runBatches_cache_mono envs _ _ t h

/-- Witness for C8: a cached text is not fetched again and stays cached. -/
theorem c8_cache_idempotence_witness :
    "Hello" ∉ (translateRange [("Hello", JVal.jstr "Bonjour")]
      (fun _ _ => HttpResponse.rate) [[JVal.jstr "Hello"]]).fetched ∧
    mapHas (translateRange [("Hello", JVal.jstr "Bonjour")]
      (fun _ _ => HttpResponse.rate) [[JVal.jstr "Hello"]]).cache "Hello" = true :=
  ⟨(c8_cache_idempotence [("Hello", JVal.jstr "Bonjour")]
      (fun _ _ => HttpResponse.rate) [[JVal.jstr "Hello"]]).2.1 "Hello" rfl,
   (c8_cache_idempotence [("Hello", JVal.jstr "Bonjour")]
      (fun _ _ => HttpResponse.rate) [[JVal.jstr "Hello"]]).2.2.2 "Hello" rfl⟩

-- Helper lemmas: the sheet-name collision loop.

theorem candFrom_shift (base : String) (counter : Nat) (current : String) (i : Nat) :
    candFrom base counter current (i + 1)
      = candFrom base (counter + 1) (sheetCandidate base counter) i := by
  cases i with
  | zero => rfl
  | succ j =>
    show sheetCandidate base (counter + (j + 1)) = sheetCandidate base (counter + 1 + j)
    rw [show counter + (j + 1) = counter + 1 + j from by omega]

theorem getUniqueSheetNameAux_unique (base : String) (names : List String) :
    ∀ (fuel : Nat) (counter : Nat) (current : String),
      (∃ i, i < fuel ∧ names.contains (jsToLower (candFrom base counter current i)) = false) →
      names.contains (jsToLower (getUniqueSheetNameAux base names fuel counter current)) = false := by
  intro fuel
  induction fuel with
  | zero =>
    intro counter current h
    rcases h with ⟨i, hi, -⟩
    omega
  | succ fuel ih =>
    intro counter current h
    by_cases hcur : names.contains (jsToLower current) = true
    · rw [show getUniqueSheetNameAux base names (fuel + 1) counter current
          = getUniqueSheetNameAux base names fuel (counter + 1) (sheetCandidate base counter) from by
        rw [getUniqueSheetNameAux, if_pos hcur]]
      refine ih (counter + 1) (sheetCandidate base counter) ?_
      rcases h with ⟨i, hi, hun⟩
      cases i with
      | zero =>
        rw [show candFrom base counter current 0 = current from rfl, hcur] at hun
        cases hun
      | succ i' =>
        rw [candFrom_shift] at hun
        exact ⟨i', by omega, hun⟩
    · rw [show getUniqueSheetNameAux base names (fuel + 1) counter current = current from by
        rw [getUniqueSheetNameAux, if_neg hcur]]
      exact Bool.eq_false_iff.mpr hcur

/-- **C9**: sheet-name post-processing strips the illegal characters and
truncates to the 31-character host limit; on a case-insensitive collision
the loop appends numeric suffixes `_1`, `_2`, ... (shortening the base so
the combined length stays within 31) and returns the first candidate that
no longer collides with any existing name — in particular a collision with
`Report` yields `Report_1`, and when that also collides, `Report_2`. -/
theorem c9_sheet_name (s base : String) (names : List String) :
    ((sanitizeSheetName s).length ≤ 31 ∧
      ∀ ch ∈ (sanitizeSheetName s).toList, illegalSheetChars.contains ch = false) ∧
    ((∃ i, i < names.length + 2 ∧
        names.contains (jsToLower (candFrom base 1 base i)) = false) →
      names.contains (jsToLower (getUniqueSheetName base names)) = false) ∧
    getUniqueSheetName "Report" ["report"] = "Report_1" ∧
    getUniqueSheetName "Report" ["report", "report_1"] = "Report_2" := by
  refine ⟨⟨?_, ?_⟩, ?_, rfl, rfl⟩
  · show ((s.toList.filter (fun c => !(illegalSheetChars.contains c))).take 31).length ≤ 31
    rw [List.length_take]
    exact Nat.min_le_left _ _
  · intro ch hch
    have hch' : ch ∈ s.toList.filter (fun c => !(illegalSheetChars.contains c)) :=
      List.mem_of_mem_take hch
    have := (List.mem_filter.mp hch').2
    simpa using this
  · intro h
    exact getUniqueSheetNameAux_unique base names (names.length + 2) 1 base h

/-- Witness for C9: sanitization length bound on a concrete name, and the
`Report` collision resolving to a fresh name. -/
theorem c9_sheet_name_witness :
    (sanitizeSheetName "Sales:Report[2024]").length ≤ 31 ∧
    ["report"].contains (jsToLower (getUniqueSheetName "Report" ["report"])) = false :=
  ⟨(c9_sheet_name "Sales:Report[2024]" "Report" ["report"]).1.1,
   (c9_sheet_name "Sales:Report[2024]" "Report" ["report"]).2.1
     ⟨1, by decide, by decide⟩⟩
